import Mathlib

/-!
Verification of the docspec CI discovery and prompt-assembly scripts.

This file gives a shallow embedding of the Python scripts
`.github/scripts/prepare-docspec-check-prompt.py` (whose
`find_candidate_docspecs` is byte-identical to the copy in
`.github/actions/docspec-check/scripts/docspec_update.py`) and of the
docspec-path derivation in `.github/scripts/prepare-docspec-generate-prompts.py`,
and proves the testable properties stated for them.

Modelling conventions:
* A filesystem path is its list of components relative to the filesystem
  root (`pathlib.Path` objects compare componentwise, and `Path.parent`
  drops the last component, with the parent of the filesystem root being
  itself, exactly as `List.dropLast` behaves on `[]`).
* Changed files reported by `git diff --name-only` are repo-relative
  component lists (they are non-blank lines, so they contain no newline,
  and `repo_root / f` is modelled by list append).
* The filesystem itself (what exists, what a non-recursive
  `glob("*.docspec.md")` enumerates in each directory and in which order,
  and what `Path.resolve` canonicalises each path to) is an explicit
  state record `FS`; the scripts only observe it through these calls.
* Python exceptions raised by `subprocess.check_output` (non-zero exit:
  `CalledProcessError`; missing binary: `FileNotFoundError`) are modelled
  by the `Except ExternalToolError` monad.
* Python strings are Lean `String`s; `str.endswith`, slicing `s[:-n]`
  and `s[:n]` are modelled on the underlying character lists.
-/

namespace DocspecCI

/-- An absolute filesystem path, as its list of components. -/
abbrev FsPath := List String

/-- A repository-relative path of a changed file, as its list of components. -/
abbrev RelPath := List String

/-- The filesystem state observed by one run of the script: which paths
exist, what `dir.glob("*.docspec.md")` enumerates (in enumeration order)
for each directory, what `str(p.resolve())` returns for each path, and the
contents `read_text` would return.  All observations the Python code makes
of the OS go through this record. -/
structure FS where
  pathExists : FsPath → Bool
  glob : FsPath → List FsPath
  resolve : FsPath → String
  readFile : FsPath → String

/-- `pathlib.Path.name`: the final component, `""` for a root path. -/
def path_name (p : FsPath) : String := (p.getLast?).getD ""

/-- Python `s.endswith(t)`: `t` is a suffix of `s` (on code points). -/
def str_ends_with (s t : String) : Bool := t.data.isSuffixOf s.data

/-- Python slice `s[:-n]` (for `n ≤ len(s)`s this drops the last `n`
characters; for larger `n` it is empty, as `List.take` with truncated
subtraction also gives). -/
def str_drop_right (s : String) (n : Nat) : String :=
  String.mk (s.data.take (s.data.length - n))

/-- Python slice `s[:n]`. -/
def str_take (s : String) (n : Nat) : String := String.mk (s.data.take n)

/-- `RE_DOCSPEC = re.compile(r".*\.docspec\.md$")` applied with `.match`
to a changed-file string: the string ends with `".docspec.md"`.  On a
newline-free string (changed files are non-blank `splitlines()` output)
this is equivalent to the final path component ending with the suffix. -/
def re_docspec_match (f : RelPath) : Bool :=
  str_ends_with (path_name f) ".docspec.md"

/-- `target_markdown_for_docspec` from `prepare-docspec-check-prompt.py`
(lines 39-48): map `README.docspec.md` to `README.md` by `with_name`,
return `None` when the name does not end with `".docspec.md"`. -/
def target_markdown_for_docspec (p : FsPath) : Option FsPath :=
  if str_ends_with (path_name p) ".docspec.md" then
    some (p.dropLast ++
      [str_drop_right (path_name p) (String.length ".docspec.md") ++ ".md"])
  else
    none

/-- The body of `if docspec_file not in candidates: candidates.append(...)`
run over one directory enumeration (`for docspec_file in current_dir.glob(...)`).
Membership is `pathlib` equality, i.e. componentwise equality. -/
def add_new (candidates : List FsPath) (found : List FsPath) : List FsPath :=
  found.foldl (fun acc d => if d ∈ acc then acc else acc ++ [d]) candidates

/-- The `while current_dir != repo_root.parent` walk of
`find_candidate_docspecs` (lines 75-85).  Each loop iteration either hits
`stopDir` or shortens `currentDir` by one component, so running the
recursion on a fuel of `currentDir.length + 1` reproduces the loop exactly
on every input on which the Python loop terminates (and the loop always
terminates when the walk starts at `repo_root / f` for a repo-relative
`f`, because the chain of parents then passes through `repo_root` and
reaches `repo_root.parent`). -/
def walk_up_add (fs : FS) : Nat → List FsPath → FsPath → FsPath → List FsPath
  | 0, candidates, _, _ => candidates
  | fuel + 1, candidates, currentDir, stopDir =>
    if currentDir = stopDir then candidates
    else
      walk_up_add fs fuel (add_new candidates (fs.glob currentDir))
        currentDir.dropLast stopDir

/-- Step 1 of `find_candidate_docspecs` (lines 62-67): directly changed
docspec files that exist on disk, in changed-file order. -/
def direct_changed_docspecs (fs : FS) (repoRoot : FsPath)
    (changedFiles : List RelPath) : List FsPath :=
  (changedFiles.filter
      (fun f => re_docspec_match f && fs.pathExists (repoRoot ++ f))).map
    (fun f => repoRoot ++ f)

/-- One iteration of the step-2 loop (lines 70-85): skip the changed file
if it does not exist, otherwise walk from its containing directory up to
(and including) the repo root. -/
def walk_step (fs : FS) (repoRoot : FsPath) (candidates : List FsPath)
    (f : RelPath) : List FsPath :=
  if fs.pathExists (repoRoot ++ f) then
    walk_up_add fs ((repoRoot ++ f).length + 1) candidates
      (repoRoot ++ f).dropLast repoRoot.dropLast
  else
    candidates

/-- The full `candidates` list after both loops of
`find_candidate_docspecs`, before deduplication. -/
def raw_candidates (fs : FS) (repoRoot : FsPath)
    (changedFiles : List RelPath) : List FsPath :=
  changedFiles.foldl (walk_step fs repoRoot)
    (direct_changed_docspecs fs repoRoot changedFiles)

/-- The `seen`-set / `uniq`-list loop of lines 87-94, with the set of
already-seen resolved path strings made explicit. -/
def dedup_resolve_aux (fs : FS) : List String → List FsPath → List FsPath
  | _, [] => []
  | seen, p :: rest =>
    if fs.resolve p ∈ seen then dedup_resolve_aux fs seen rest
    else p :: dedup_resolve_aux fs (fs.resolve p :: seen) rest

/-- De-dupe while preserving order, by `str(p.resolve())` (lines 87-94). -/
def dedup_resolve (fs : FS) (candidates : List FsPath) : List FsPath :=
  dedup_resolve_aux fs [] candidates

/-- The contents of the `seen` set after the dedup loop has processed a
list of candidates (used only in proofs). -/
def seen_after (fs : FS) (seen : List String) (l : List FsPath) : List String :=
  l.foldl (fun s p => if fs.resolve p ∈ s then s else fs.resolve p :: s) seen

/-- `find_candidate_docspecs(repo_root, changed_files)` (lines 51-96),
with the module-level configuration `MAX_DOCSPECS = int(os.getenv(...))`
(default 10) passed explicitly.  Returns `uniq[:MAX_DOCSPECS]`. -/
def find_candidate_docspecs (fs : FS) (maxDocspecs : Nat) (repoRoot : FsPath)
    (changedFiles : List RelPath) : List FsPath :=
  (dedup_resolve fs (raw_candidates fs repoRoot changedFiles)).take maxDocspecs

/-- The literal appended by `pr_diff_text` on truncation. -/
def TRUNCATION_MARKER : String := "\n\n[DIFF TRUNCATED]\n"

/-- `pr_diff_text` (lines 99-105) applied to the stripped `git diff`
output, with `MAX_DIFF_CHARS` (default 120000) passed explicitly:
`diff[:max_chars] + "\n\n[DIFF TRUNCATED]\n"` when too long. -/
def pr_diff_text (maxChars : Nat) (diff : String) : String :=
  if diff.length > maxChars then str_take diff maxChars ++ TRUNCATION_MARKER
  else diff

/-- The exceptions `subprocess.check_output` can raise: a non-zero exit
(`CalledProcessError`, carrying the return code and captured output) or a
missing binary (`FileNotFoundError`). -/
inductive ExternalToolError where
  | calledProcessError (returncode : Int) (output : String)
  | fileNotFound (filename : String)
deriving DecidableEq

/-- Python `str.strip()`: remove leading and trailing whitespace. -/
def py_strip (s : String) : String :=
  String.mk
    (((s.data.dropWhile Char.isWhitespace).reverse.dropWhile
        Char.isWhitespace).reverse)

/-- Python `str.splitlines()` on the line boundaries `"\r\n"`, `"\r"`,
`"\n"` (the ones that can occur in `git` output): no trailing empty entry,
and `""` splits to `[]`. -/
def splitlines_aux : List Char → List Char → List String
  | [], acc => if acc.isEmpty then [] else [String.mk acc.reverse]
  | '\r' :: '\n' :: rest, acc => String.mk acc.reverse :: splitlines_aux rest []
  | '\r' :: rest, acc => String.mk acc.reverse :: splitlines_aux rest []
  | '\n' :: rest, acc => String.mk acc.reverse :: splitlines_aux rest []
  | c :: rest, acc => splitlines_aux rest (c :: acc)
termination_by l _ => l.length

/-- Python `s.splitlines()`. -/
def py_splitlines (s : String) : List String := splitlines_aux s.data []

/-- `sh(cmd)` (lines 28-30): `subprocess.check_output(cmd, text=True).strip()`.
The external invocation outcome (captured stdout, or a raised exception)
is the explicit input; `sh` strips the output and lets exceptions
propagate. -/
def sh (commandResult : Except ExternalToolError String) :
    Except ExternalToolError String :=
  commandResult.map py_strip

/-- `list_changed_files(base_sha, merge_sha)` (lines 33-36), as a function
of the outcome of the `git diff --name-only base...merge` invocation:
split the stripped output into lines and drop blank ones. -/
def list_changed_files (gitOutput : Except ExternalToolError String) :
    Except ExternalToolError (List String) :=
  (sh gitOutput).map
    (fun out => (py_splitlines out).filter (fun line => line ≠ ""))

/-- The observable outcome of `main` (lines 108-178) on the paths that do
not raise: either an early `sys.exit(0)` after printing a "nothing to do"
message (no prompt body emitted), or printing the assembled prompt and
exiting normally (also exit code 0). -/
inductive MainOutput where
  | nothingToDo (message : String)
  | prompt (text : String)
deriving DecidableEq

/-- `str(path)` for a repo-relative path (`"."` when empty). -/
def path_str (p : FsPath) : String :=
  if p = [] then "." else String.intercalate "/" p

/-- `p.relative_to(repo_root)` for a path below the root: drop the root
components. -/
def relative_to (repoRoot p : FsPath) : FsPath := p.drop repoRoot.length

/-- The entries `main` appends to `prompt_parts` for one docspec whose
target markdown exists (lines 146-158). -/
def section_for (fs : FS) (repoRoot : FsPath) (docspecPath targetMd : FsPath) :
    List String :=
  ["## Docspec: " ++ path_str (relative_to repoRoot docspecPath),
   "Target markdown: " ++ path_str (relative_to repoRoot targetMd),
   "",
   "<docspec>",
   fs.readFile docspecPath,
   "</docspec>",
   "",
   "<markdown>",
   fs.readFile targetMd,
   "</markdown>",
   ""]

/-- The initial `prompt_parts` (lines 125-133). -/
def init_parts (diff : String) : List String :=
  ["Merged PR diff (context):",
   "<diff>",
   diff,
   "</diff>",
   "",
   "The following docspec files were discovered based on the PR changes. For each docspec, check if its target markdown file needs to be updated based on the code changes:",
   ""]

/-- The fixed task-instructions trailer (lines 166-174). -/
def task_lines : List String :=
  ["Task:",
   "1. Explore the repository using your available tools to understand the codebase context",
   "2. Understand how the code changes in the diff relate to each docspec\x27s requirements",
   "3. For each markdown file listed above, check if it already satisfies its docspec given the code changes",
   "4. Only update markdown files if changes are actually necessary to satisfy their docspecs - avoid making unnecessary changes",
   "5. Use the Edit tool to modify markdown files directly if changes are needed",
   "6. Do not provide any text output - files are modified directly using tools"]

/-- A candidate docspec passes the per-pair filter of the main loop
(line 140: `if not target_md or not target_md.exists(): continue`). -/
def valid_pair (fs : FS) (docspecPath : FsPath) : Bool :=
  match target_markdown_for_docspec docspecPath with
  | some md => fs.pathExists md
  | none => false

/-- The `for docspec_path in docspec_paths` loop of `main` (lines 138-159),
carrying `(prompt_parts, docspecs_added)`. -/
def build_sections (fs : FS) (repoRoot : FsPath) :
    List FsPath → List String × Nat → List String × Nat
  | [], st => st
  | dp :: rest, (parts, added) =>
    match target_markdown_for_docspec dp with
    | none => build_sections fs repoRoot rest (parts, added)
    | some md =>
      if fs.pathExists md then
        build_sections fs repoRoot rest
          (parts ++ section_for fs repoRoot dp md, added + 1)
      else
        build_sections fs repoRoot rest (parts, added)

/-- The candidate-dependent part of `main` (lines 118-178), as a function
of the discovered changed files and diff text: early exit 0 when no
candidates, early exit 0 when no candidate has an existing target
markdown, otherwise print the joined prompt. -/
def main_flow (fs : FS) (repoRoot : FsPath) (changedFiles : List RelPath)
    (diff : String) (maxDocspecs : Nat) : MainOutput :=
  if find_candidate_docspecs fs maxDocspecs repoRoot changedFiles = [] then
    MainOutput.nothingToDo "No relevant docspec files found."
  else if (build_sections fs repoRoot
      (find_candidate_docspecs fs maxDocspecs repoRoot changedFiles)
      (init_parts diff, 0)).2 = 0 then
    MainOutput.nothingToDo
      "No relevant docspec files found with valid target markdown files."
  else
    MainOutput.prompt (String.intercalate "\n"
      ((build_sections fs repoRoot
          (find_candidate_docspecs fs maxDocspecs repoRoot changedFiles)
          (init_parts diff, 0)).1 ++ task_lines))

/-- `PurePath.suffix`: the extension of the final dot of `name`, empty
unless the last dot sits at an index `i` with `0 < i < len(name) - 1`
(so a leading or trailing dot yields no extension). -/
def pathlib_suffix (name : String) : String :=
  if 0 < (name.data.reverse.takeWhile (fun c => c != '.')).length
      ∧ (name.data.reverse.takeWhile (fun c => c != '.')).length + 1
          < name.data.length then
    String.mk ('.' :: (name.data.reverse.takeWhile (fun c => c != '.')).reverse)
  else ""

/-- `md_path.with_suffix(".docspec.md")` from
`prepare-docspec-generate-prompts.py` line 49 (`pathlib.PurePath.with_suffix`
specialised to the valid new extension `".docspec.md"`): raises
(`none`) on an empty name, otherwise replaces the old `PurePath.suffix`
(or appends when there is none). -/
def with_suffix_docspec (p : FsPath) : Option FsPath :=
  if path_name p = "" then none
  else if pathlib_suffix (path_name p) = "" then
    some (p.dropLast ++ [path_name p ++ ".docspec.md"])
  else
    some (p.dropLast ++
      [str_drop_right (path_name p) (pathlib_suffix (path_name p)).length
        ++ ".docspec.md"])

/-- A small concrete filesystem used as a witness: a repository at
`/repo` containing `src/components/component.ts`, `README.docspec.md`
and `README.md`, where only the root directory contains a docspec. -/
def exampleFS : FS where
  pathExists := fun p =>
    decide (p ∈ ([["repo"], ["repo", "src"], ["repo", "src", "components"],
      ["repo", "src", "components", "component.ts"],
      ["repo", "README.docspec.md"], ["repo", "README.md"]] : List FsPath))
  glob := fun d =>
    if d = ["repo"] then [["repo", "README.docspec.md"]] else []
  resolve := fun p => String.intercalate "/" ("" :: p)
  readFile := fun _ => ""

/-! ## String-level helper lemmas -/

theorem string_data_append (a b : String) : (a ++ b).data = a.data ++ b.data := by
  cases a; cases b; rfl

theorem string_mk_data (s : String) : String.mk s.data = s := by
  cases s; rfl

theorem string_length_data (s : String) : s.length = s.data.length := rfl

theorem string_length_append (a b : String) :
    (a ++ b).length = a.length + b.length := by
  rw [string_length_data, string_data_append, List.length_append]
  rfl

theorem data_ne_nil_of_ne_empty (s : String) (h : s ≠ "") : s.data ≠ [] := by
  intro hd
  apply h
  cases s
  simp only [String.data] at hd
  subst hd
  rfl

theorem string_ne_empty_of_data (s : String) (h : s.data ≠ []) : s ≠ "" := by
  intro he
  subst he
  exact h rfl

theorem str_ends_with_append (a b : String) : str_ends_with (a ++ b) b = true := by
  simp only [str_ends_with, string_data_append, List.isSuffixOf_iff_suffix]
  exact List.suffix_append a.data b.data

theorem str_ends_with_eq_false (s t : String) (h : ¬ t.data <:+ s.data) :
    str_ends_with s t = false := by
  simp only [str_ends_with]
  rw [Bool.eq_false_iff]
  intro hc
  exact h (List.isSuffixOf_iff_suffix.mp hc)

theorem str_drop_right_append (a b : String) :
    str_drop_right (a ++ b) b.length = a := by
  unfold str_drop_right
  rw [string_data_append]
  have h1 : (a.data ++ b.data).length - b.length = a.data.length := by
    rw [List.length_append, string_length_data]
    omega
  rw [h1, List.take_left, string_mk_data]

theorem path_name_concat (dir : List String) (x : String) :
    path_name (dir ++ [x]) = x := by
  unfold path_name
  rw [List.getLast?_concat]
  rfl

/-- Shared: the positive case of `target_markdown_for_docspec`. -/
theorem target_markdown_concat (dir : List String) (stem : String) :
    target_markdown_for_docspec (dir ++ [stem ++ ".docspec.md"])
      = some (dir ++ [stem ++ ".md"]) := by
  unfold target_markdown_for_docspec
  rw [path_name_concat, str_ends_with_append]
  simp only [if_true]
  rw [str_drop_right_append, List.dropLast_concat]

/-!  ## Claim theorems begin here. -/

/-- Claim C1: for every filesystem state, configured maximum, repository
root and changed-file list, the list returned by `find_candidate_docspecs`
has length at most the configured maximum, because the deduplicated
candidate list is truncated by `uniq[:MAX_DOCSPECS]`. -/
theorem find_candidate_docspecs_length_le (fs : FS) (maxDocspecs : Nat)
    (repoRoot : FsPath) (changedFiles : List RelPath) :
    (find_candidate_docspecs fs maxDocspecs repoRoot changedFiles).length
      ≤ maxDocspecs := by
  rw [find_candidate_docspecs, List.length_take]
  exact Nat.min_le_left _ _

/-- Claim C3: `target_markdown_for_docspec` is a pure function that maps
any path whose final component is `stem ++ ".docspec.md"` to the same
path with final component `stem ++ ".md"` (so `README.docspec.md` maps to
`README.md`), and returns `none` on every path whose final component does
not end with `".docspec.md"`. -/
theorem target_markdown_spec (dir : List String) (stem : String) (p : FsPath)
    (h : ¬ ".docspec.md".data <:+ (path_name p).data) :
    target_markdown_for_docspec (dir ++ [stem ++ ".docspec.md"])
      = some (dir ++ [stem ++ ".md"])
    ∧ target_markdown_for_docspec p = none := by
  refine ⟨target_markdown_concat dir stem, ?_⟩
  unfold target_markdown_for_docspec
  rw [str_ends_with_eq_false _ _ h]
  simp

theorem target_markdown_spec_witness :
    target_markdown_for_docspec ([] ++ ["README" ++ ".docspec.md"])
      = some ([] ++ ["README" ++ ".md"])
    ∧ target_markdown_for_docspec ["component.ts"] = none :=
  target_markdown_spec [] "README" ["component.ts"] (by decide)

/-- Claim C6: `pr_diff_text` truncates any diff longer than the limit to
its first `maxChars` characters followed by the marker
`"\n\n[DIFF TRUNCATED]\n"` (so the result ends with the marker and has
length at most the limit plus the marker length), and returns a diff at
or under the limit unchanged. -/
theorem pr_diff_text_spec (maxChars : Nat) (diff : String) :
    (diff.length > maxChars →
        pr_diff_text maxChars diff = str_take diff maxChars ++ TRUNCATION_MARKER
        ∧ TRUNCATION_MARKER.data <:+ (pr_diff_text maxChars diff).data
        ∧ (pr_diff_text maxChars diff).length
            ≤ maxChars + TRUNCATION_MARKER.length)
    ∧ (diff.length ≤ maxChars → pr_diff_text maxChars diff = diff) := by
  constructor
  · intro h
    have heq : pr_diff_text maxChars diff
        = str_take diff maxChars ++ TRUNCATION_MARKER := by
      unfold pr_diff_text
      rw [if_pos h]
    refine ⟨heq, ?_, ?_⟩
    · rw [heq, string_data_append]
      exact List.suffix_append _ _
    · rw [heq, string_length_append]
      have : (str_take diff maxChars).length ≤ maxChars := by
        have h2 : (str_take diff maxChars).length
            = (diff.data.take maxChars).length := rfl
        rw [h2, List.length_take]
        exact Nat.min_le_left _ _
      omega
  · intro h
    unfold pr_diff_text
    rw [if_neg (by omega)]

theorem pr_diff_text_spec_witness :
    (pr_diff_text 3 "abcdef" = str_take "abcdef" 3 ++ TRUNCATION_MARKER
      ∧ TRUNCATION_MARKER.data <:+ (pr_diff_text 3 "abcdef").data
      ∧ (pr_diff_text 3 "abcdef").length ≤ 3 + TRUNCATION_MARKER.length)
    ∧ pr_diff_text 9 "abcdef" = "abcdef" :=
  ⟨(pr_diff_text_spec 3 "abcdef").1 (by decide),
   (pr_diff_text_spec 9 "abcdef").2 (by decide)⟩

/-- Claim C7: `list_changed_files` propagates any failure of the git
invocation itself (non-zero exit or missing binary) unchanged, and on
success returns the stripped diff output split into lines with every
blank line removed. -/
theorem list_changed_files_spec (gitOutput : Except ExternalToolError String) :
    (∀ e, gitOutput = Except.error e →
        list_changed_files gitOutput = Except.error e)
    ∧ (∀ out, gitOutput = Except.ok out →
        list_changed_files gitOutput
          = Except.ok ((py_splitlines (py_strip out)).filter
              (fun line => line ≠ ""))
        ∧ ∀ lines, list_changed_files gitOutput = Except.ok lines →
            ∀ l ∈ lines, l ≠ "") := by
  constructor
  · intro e he
    subst he
    rfl
  · intro out hout
    subst hout
    refine ⟨rfl, ?_⟩
    intro lines hl l hmem
    have hcomp : list_changed_files (Except.ok out)
        = Except.ok ((py_splitlines (py_strip out)).filter
            (fun line => line ≠ "")) := rfl
    rw [hcomp] at hl
    injection hl with hlines
    subst hlines
    have := (List.mem_filter.mp hmem).2
    simpa using this

theorem list_changed_files_spec_witness :
    list_changed_files (Except.error (ExternalToolError.fileNotFound "git"))
      = Except.error (ExternalToolError.fileNotFound "git")
    ∧ (list_changed_files (Except.ok "a\n\nb ")
        = Except.ok ((py_splitlines (py_strip "a\n\nb ")).filter
            (fun line => line ≠ ""))
      ∧ ∀ lines, list_changed_files (Except.ok "a\n\nb ") = Except.ok lines →
          ∀ l ∈ lines, l ≠ "") :=
  ⟨(list_changed_files_spec
      (Except.error (ExternalToolError.fileNotFound "git"))).1 _ rfl,
   (list_changed_files_spec (Except.ok "a\n\nb ")).2 _ rfl⟩

/-! ## Lemmas about the dedup loop -/

theorem seen_after_nil (fs : FS) (seen : List String) :
    seen_after fs seen [] = seen := rfl

theorem seen_after_cons (fs : FS) (seen : List String) (p : FsPath)
    (l : List FsPath) :
    seen_after fs seen (p :: l)
      = seen_after fs
          (if fs.resolve p ∈ seen then seen else fs.resolve p :: seen) l := rfl

theorem subset_seen_after (fs : FS) (l : List FsPath) :
    ∀ seen, seen ⊆ seen_after fs seen l := by
  induction l with
  | nil => intro seen x hx; exact hx
  | cons p l ih =>
    intro seen
    rw [seen_after_cons]
    by_cases h : fs.resolve p ∈ seen
    · rw [if_pos h]; exact ih seen
    · rw [if_neg h]
      intro x hx
      exact ih _ (List.mem_cons_of_mem _ hx)

theorem resolve_mem_seen_after (fs : FS) (l : List FsPath) :
    ∀ seen p, p ∈ l → fs.resolve p ∈ seen_after fs seen l := by
  induction l with
  | nil => intro seen p hp; simp at hp
  | cons q l ih =>
    intro seen p hp
    rw [seen_after_cons]
    rcases List.mem_cons.mp hp with rfl | hp'
    · by_cases h : fs.resolve p ∈ seen
      · rw [if_pos h]
        exact subset_seen_after fs l seen h
      · rw [if_neg h]
        exact subset_seen_after fs l _ (List.mem_cons_self _ _)
    · by_cases h : fs.resolve q ∈ seen
      · rw [if_pos h]; exact ih seen p hp'
      · rw [if_neg h]; exact ih _ p hp'

theorem dedup_resolve_aux_append (fs : FS) (l1 l2 : List FsPath) : ∀ seen,
    dedup_resolve_aux fs seen (l1 ++ l2)
      = dedup_resolve_aux fs seen l1
        ++ dedup_resolve_aux fs (seen_after fs seen l1) l2 := by
  induction l1 with
  | nil => intro seen; simp [dedup_resolve_aux, seen_after_nil]
  | cons p l1 ih =>
    intro seen
    rw [List.cons_append, dedup_resolve_aux, seen_after_cons]
    conv_rhs => rw [dedup_resolve_aux]
    by_cases h : fs.resolve p ∈ seen
    · simp only [if_pos h]
      exact ih seen
    · simp only [if_neg h]
      rw [ih (fs.resolve p :: seen), List.cons_append]

theorem resolve_not_mem_seen_of_mem_dedup (fs : FS) (l : List FsPath) :
    ∀ seen q, q ∈ dedup_resolve_aux fs seen l → fs.resolve q ∉ seen := by
  induction l with
  | nil => intro seen q hq; simp [dedup_resolve_aux] at hq
  | cons p l ih =>
    intro seen q hq
    rw [dedup_resolve_aux] at hq
    by_cases h : fs.resolve p ∈ seen
    · rw [if_pos h] at hq
      exact ih seen q hq
    · rw [if_neg h] at hq
      rcases List.mem_cons.mp hq with rfl | hq'
      · exact h
      · intro hmem
        exact ih _ _ hq' (List.mem_cons_of_mem _ hmem)

theorem dedup_resolve_aux_nodup (fs : FS) (l : List FsPath) :
    ∀ seen, ((dedup_resolve_aux fs seen l).map fs.resolve).Nodup := by
  induction l with
  | nil => intro seen; simp [dedup_resolve_aux]
  | cons p l ih =>
    intro seen
    rw [dedup_resolve_aux]
    by_cases h : fs.resolve p ∈ seen
    · rw [if_pos h]; exact ih seen
    · rw [if_neg h]
      rw [List.map_cons, List.nodup_cons]
      refine ⟨?_, ih _⟩
      intro hmem
      rcases List.mem_map.mp hmem with ⟨q, hq, hrq⟩
      exact resolve_not_mem_seen_of_mem_dedup fs l _ q hq
        (by rw [hrq]; exact List.mem_cons_self _ _)

theorem resolve_mem_dedup_of_mem (fs : FS) (l : List FsPath) :
    ∀ seen p, p ∈ l →
      fs.resolve p ∈ seen
      ∨ fs.resolve p ∈ (dedup_resolve_aux fs seen l).map fs.resolve := by
  induction l with
  | nil => intro seen p hp; simp at hp
  | cons q l ih =>
    intro seen p hp
    rw [dedup_resolve_aux]
    rcases List.mem_cons.mp hp with rfl | hp'
    · by_cases h : fs.resolve p ∈ seen
      · exact Or.inl h
      · right
        rw [if_neg h, List.map_cons]
        exact List.mem_cons_self _ _
    · by_cases h : fs.resolve q ∈ seen
      · rw [if_pos h]
        exact ih seen p hp'
      · rw [if_neg h]
        rcases ih (fs.resolve q :: seen) p hp' with hmem | hmem
        · rcases List.mem_cons.mp hmem with heq | hseen
          · right
            rw [List.map_cons, heq]
            exact List.mem_cons_self _ _
          · exact Or.inl hseen
        · right
          rw [List.map_cons]
          exact List.mem_cons_of_mem _ hmem

theorem mem_of_mem_dedup (fs : FS) (l : List FsPath) :
    ∀ seen q, q ∈ dedup_resolve_aux fs seen l → q ∈ l := by
  induction l with
  | nil => intro seen q hq; simp [dedup_resolve_aux] at hq
  | cons p l ih =>
    intro seen q hq
    rw [dedup_resolve_aux] at hq
    by_cases h : fs.resolve p ∈ seen
    · rw [if_pos h] at hq
      exact List.mem_cons_of_mem _ (ih seen q hq)
    · rw [if_neg h] at hq
      rcases List.mem_cons.mp hq with rfl | hq'
      · exact List.mem_cons_self _ _
      · exact List.mem_cons_of_mem _ (ih _ q hq')

/-! ## Lemmas about the candidate-accumulating loops -/

theorem add_new_cons (acc : List FsPath) (d : FsPath) (l : List FsPath) :
    add_new acc (d :: l) = add_new (if d ∈ acc then acc else acc ++ [d]) l := rfl

theorem add_new_eq_append (l : List FsPath) :
    ∀ acc, ∃ t, add_new acc l = acc ++ t := by
  induction l with
  | nil => intro acc; exact ⟨[], by simp [add_new]⟩
  | cons d l ih =>
    intro acc
    rw [add_new_cons]
    by_cases h : d ∈ acc
    · rw [if_pos h]; exact ih acc
    · rw [if_neg h]
      rcases ih (acc ++ [d]) with ⟨t, ht⟩
      exact ⟨[d] ++ t, by rw [ht, List.append_assoc]⟩

theorem mem_add_new_left (l : List FsPath) (acc : List FsPath) (p : FsPath)
    (hp : p ∈ acc) : p ∈ add_new acc l := by
  rcases add_new_eq_append l acc with ⟨t, ht⟩
  rw [ht]
  exact List.mem_append_left _ hp

theorem mem_add_new_of_mem (l : List FsPath) :
    ∀ acc p, p ∈ l → p ∈ add_new acc l := by
  induction l with
  | nil => intro acc p hp; simp at hp
  | cons d l ih =>
    intro acc p hp
    rw [add_new_cons]
    rcases List.mem_cons.mp hp with rfl | hp'
    · by_cases h : p ∈ acc
      · rw [if_pos h]
        exact mem_add_new_left l acc p h
      · rw [if_neg h]
        exact mem_add_new_left l _ p (List.mem_append_right _ (List.mem_cons_self _ _))
    · by_cases h : d ∈ acc
      · rw [if_pos h]; exact ih acc p hp'
      · rw [if_neg h]; exact ih _ p hp'

theorem mem_add_new (l : List FsPath) :
    ∀ acc p, p ∈ add_new acc l → p ∈ acc ∨ p ∈ l := by
  induction l with
  | nil => intro acc p hp; exact Or.inl hp
  | cons d l ih =>
    intro acc p hp
    rw [add_new_cons] at hp
    by_cases h : d ∈ acc
    · rw [if_pos h] at hp
      rcases ih acc p hp with h' | h'
      · exact Or.inl h'
      · exact Or.inr (List.mem_cons_of_mem _ h')
    · rw [if_neg h] at hp
      rcases ih _ p hp with h' | h'
      · rcases List.mem_append.mp h' with h'' | h''
        · exact Or.inl h''
        · rcases List.mem_singleton.mp h'' with rfl
          exact Or.inr (List.mem_cons_self _ _)
      · exact Or.inr (List.mem_cons_of_mem _ h')

theorem walk_up_add_eq_append (fs : FS) (fuel : Nat) :
    ∀ acc currentDir stopDir,
      ∃ t, walk_up_add fs fuel acc currentDir stopDir = acc ++ t := by
  induction fuel with
  | zero => intro acc cur stop; exact ⟨[], by simp [walk_up_add]⟩
  | succ fuel ih =>
    intro acc cur stop
    rw [walk_up_add]
    by_cases h : cur = stop
    · rw [if_pos h]; exact ⟨[], by simp⟩
    · rw [if_neg h]
      rcases add_new_eq_append (fs.glob cur) acc with ⟨t1, ht1⟩
      rcases ih (add_new acc (fs.glob cur)) cur.dropLast stop with ⟨t2, ht2⟩
      exact ⟨t1 ++ t2, by rw [ht2, ht1, List.append_assoc]⟩

theorem mem_walk_up_add_left (fs : FS) (fuel : Nat) (acc : List FsPath)
    (currentDir stopDir : FsPath) (p : FsPath) (hp : p ∈ acc) :
    p ∈ walk_up_add fs fuel acc currentDir stopDir := by
  rcases walk_up_add_eq_append fs fuel acc currentDir stopDir with ⟨t, ht⟩
  rw [ht]
  exact List.mem_append_left _ hp

theorem mem_walk_up_add (fs : FS) (fuel : Nat) :
    ∀ acc currentDir stopDir p,
      p ∈ walk_up_add fs fuel acc currentDir stopDir →
      p ∈ acc ∨ ∃ d, p ∈ fs.glob d := by
  induction fuel with
  | zero => intro acc cur stop p hp; exact Or.inl hp
  | succ fuel ih =>
    intro acc cur stop p hp
    rw [walk_up_add] at hp
    by_cases h : cur = stop
    · rw [if_pos h] at hp; exact Or.inl hp
    · rw [if_neg h] at hp
      rcases ih _ _ _ p hp with h' | h'
      · rcases mem_add_new _ _ _ h' with h'' | h''
        · exact Or.inl h''
        · exact Or.inr ⟨cur, h''⟩
      · exact Or.inr h'

theorem foldl_walk_step_append (fs : FS) (repoRoot : FsPath)
    (l : List RelPath) :
    ∀ init, ∃ t, l.foldl (walk_step fs repoRoot) init = init ++ t := by
  induction l with
  | nil => intro init; exact ⟨[], by simp⟩
  | cons f l ih =>
    intro init
    rw [List.foldl_cons]
    rcases ih (walk_step fs repoRoot init f) with ⟨t2, ht2⟩
    have h1 : ∃ t1, walk_step fs repoRoot init f = init ++ t1 := by
      unfold walk_step
      cases hb : fs.pathExists (repoRoot ++ f)
      · simp only [hb, Bool.false_eq_true, if_false]
        exact ⟨[], by simp⟩
      · simp only [hb, if_true]
        exact walk_up_add_eq_append fs _ init _ _
    rcases h1 with ⟨t1, ht1⟩
    exact ⟨t1 ++ t2, by rw [ht2, ht1, List.append_assoc]⟩

/-- Claim C2: a candidate reachable several times (for instance both as a
directly-changed docspec and via the directory walk from another changed
file) survives deduplication exactly once, deduplicating by the resolved
path string while preserving first-seen order: the deduplicated list is
the dedup of the step-1 (direct-change) list followed by a tail whose
resolved paths avoid every step-1 resolved path, so the position of a
direct-change candidate is the one the direct pass assigned; the returned
list is this deduplicated list truncated, on which each resolved path
still occurs at most once. -/
theorem find_candidate_docspecs_dedup (fs : FS) (maxDocspecs : Nat)
    (repoRoot : FsPath) (changedFiles : List RelPath) (p : FsPath)
    (hp : p ∈ raw_candidates fs repoRoot changedFiles) :
    ((dedup_resolve fs (raw_candidates fs repoRoot changedFiles)).map
        fs.resolve).count (fs.resolve p) = 1
    ∧ find_candidate_docspecs fs maxDocspecs repoRoot changedFiles
        = (dedup_resolve fs (raw_candidates fs repoRoot changedFiles)).take
            maxDocspecs
    ∧ ((find_candidate_docspecs fs maxDocspecs repoRoot changedFiles).map
        fs.resolve).count (fs.resolve p) ≤ 1
    ∧ ∃ tail,
        dedup_resolve fs (raw_candidates fs repoRoot changedFiles)
          = dedup_resolve fs
              (direct_changed_docspecs fs repoRoot changedFiles) ++ tail
        ∧ ∀ q ∈ tail,
            fs.resolve q
              ∉ (direct_changed_docspecs fs repoRoot changedFiles).map
                  fs.resolve := by
  have hnodup : ((dedup_resolve fs
      (raw_candidates fs repoRoot changedFiles)).map fs.resolve).Nodup :=
    dedup_resolve_aux_nodup fs (raw_candidates fs repoRoot changedFiles) []
  have hmem : fs.resolve p ∈ (dedup_resolve fs
      (raw_candidates fs repoRoot changedFiles)).map fs.resolve := by
    rcases resolve_mem_dedup_of_mem fs
        (raw_candidates fs repoRoot changedFiles) [] p hp with h | h
    · simp at h
    · exact h
  refine ⟨?_, rfl, ?_, ?_⟩
  · have h1 := List.nodup_iff_count_le_one.mp hnodup (fs.resolve p)
    have h2 := List.count_pos_iff.mpr hmem
    omega
  · have hsub : List.Sublist
        ((find_candidate_docspecs fs maxDocspecs repoRoot changedFiles).map
          fs.resolve)
        ((dedup_resolve fs (raw_candidates fs repoRoot changedFiles)).map
          fs.resolve) := by
      rw [find_candidate_docspecs, List.map_take]
      exact List.take_sublist _ _
    calc ((find_candidate_docspecs fs maxDocspecs repoRoot changedFiles).map
        fs.resolve).count (fs.resolve p)
        ≤ ((dedup_resolve fs (raw_candidates fs repoRoot changedFiles)).map
            fs.resolve).count (fs.resolve p) := hsub.count_le _
      _ ≤ 1 := List.nodup_iff_count_le_one.mp hnodup _
  · rcases foldl_walk_step_append fs repoRoot changedFiles
        (direct_changed_docspecs fs repoRoot changedFiles) with ⟨t, ht⟩
    have hraw : raw_candidates fs repoRoot changedFiles
        = direct_changed_docspecs fs repoRoot changedFiles ++ t := ht
    refine ⟨dedup_resolve_aux fs
        (seen_after fs [] (direct_changed_docspecs fs repoRoot changedFiles))
        t, ?_, ?_⟩
    · rw [dedup_resolve, hraw, dedup_resolve_aux_append]
      rfl
    · intro q hq hqmem
      rcases List.mem_map.mp hqmem with ⟨r, hr, hrq⟩
      have h1 := resolve_not_mem_seen_of_mem_dedup fs t _ q hq
      have h2 := resolve_mem_seen_after fs
        (direct_changed_docspecs fs repoRoot changedFiles) [] r hr
      rw [hrq] at h2
      exact h1 h2

theorem find_candidate_docspecs_dedup_witness :
    ((dedup_resolve exampleFS (raw_candidates exampleFS ["repo"]
        [["README.docspec.md"], ["src", "components", "component.ts"]])).map
        exampleFS.resolve).count
      (exampleFS.resolve ["repo", "README.docspec.md"]) = 1
    ∧ find_candidate_docspecs exampleFS 10 ["repo"]
        [["README.docspec.md"], ["src", "components", "component.ts"]]
      = (dedup_resolve exampleFS (raw_candidates exampleFS ["repo"]
          [["README.docspec.md"], ["src", "components", "component.ts"]])).take 10
    ∧ ((find_candidate_docspecs exampleFS 10 ["repo"]
        [["README.docspec.md"], ["src", "components", "component.ts"]]).map
        exampleFS.resolve).count
      (exampleFS.resolve ["repo", "README.docspec.md"]) ≤ 1
    ∧ ∃ tail,
        dedup_resolve exampleFS (raw_candidates exampleFS ["repo"]
            [["README.docspec.md"], ["src", "components", "component.ts"]])
          = dedup_resolve exampleFS (direct_changed_docspecs exampleFS ["repo"]
              [["README.docspec.md"], ["src", "components", "component.ts"]])
            ++ tail
        ∧ ∀ q ∈ tail,
            exampleFS.resolve q
              ∉ (direct_changed_docspecs exampleFS ["repo"]
                  [["README.docspec.md"],
                   ["src", "components", "component.ts"]]).map
                  exampleFS.resolve :=
  find_candidate_docspecs_dedup exampleFS 10 ["repo"]
    [["README.docspec.md"], ["src", "components", "component.ts"]]
    ["repo", "README.docspec.md"] (by decide)

/-! ## The walk reaches the repository root (C4) -/

theorem walk_up_add_stop (fs : FS) (fuel : Nat) (acc : List FsPath)
    (stopDir : FsPath) : walk_up_add fs fuel acc stopDir stopDir = acc := by
  cases fuel with
  | zero => rfl
  | succ fuel => rw [walk_up_add, if_pos rfl]

theorem ne_of_length_ne {α : Type} {l1 l2 : List α}
    (h : l1.length ≠ l2.length) : l1 ≠ l2 := by
  intro he
  exact h (by rw [he])

/-- Starting two directory levels below the repository root, the walk
scans the root directory itself before stopping at its parent, so every
file the root-directory glob enumerates ends up among the candidates. -/
theorem mem_walk_up_from_two_levels (fs : FS) (repoRoot : FsPath)
    (hroot : repoRoot ≠ []) (a b : String) (m : Nat) (acc : List FsPath)
    (p : FsPath) (hp : p ∈ fs.glob repoRoot) :
    p ∈ walk_up_add fs (m + 3) acc (repoRoot ++ [a, b]) repoRoot.dropLast := by
  have hrl : 0 < repoRoot.length := List.length_pos.mpr hroot
  have hdl : repoRoot.dropLast.length = repoRoot.length - 1 :=
    List.length_dropLast repoRoot
  have h1 : repoRoot ++ [a, b] ≠ repoRoot.dropLast := by
    apply ne_of_length_ne
    rw [List.length_append, hdl]
    simp
    omega
  have h2 : repoRoot ++ [a] ≠ repoRoot.dropLast := by
    apply ne_of_length_ne
    rw [List.length_append, hdl]
    simp
    omega
  have h3 : repoRoot ≠ repoRoot.dropLast := by
    apply ne_of_length_ne
    rw [hdl]
    omega
  have hd1 : (repoRoot ++ [a, b]).dropLast = repoRoot ++ [a] := by
    rw [show repoRoot ++ [a, b] = (repoRoot ++ [a]) ++ [b] by simp,
      List.dropLast_concat]
  have hd2 : (repoRoot ++ [a]).dropLast = repoRoot := List.dropLast_concat
  rw [show m + 3 = (m + 2) + 1 by omega, walk_up_add, if_neg h1, hd1]
  rw [show m + 2 = (m + 1) + 1 by omega, walk_up_add, if_neg h2, hd2]
  rw [walk_up_add, if_neg h3]
  apply mem_walk_up_add_left
  exact mem_add_new_of_mem _ _ _ hp

/-- Claim C4: for a changed file `src/components/component.ts` that
exists on disk and a specification file `README.docspec.md` enumerated in
the repository root directory, the step-2 walk of
`find_candidate_docspecs` ascends one level at a time from the containing
directory of the changed file and stops only at the parent of the
repository root, so the root directory itself is scanned: the root
docspec is among the accumulated candidates (and its resolved path is
represented in the deduplicated list).  The second conjunct checks the
scenario end-to-end on the concrete filesystem `exampleFS`, where the
root `README.docspec.md` is in the list returned by
`find_candidate_docspecs`.  (The general conjunct assumes the repository
root is not the filesystem root `/`, since `/` is its own `parent` and
the Python loop would then stop before scanning it.) -/
theorem walk_reaches_repo_root :
    (∀ (fs : FS) (repoRoot : FsPath), repoRoot ≠ [] →
      fs.pathExists (repoRoot ++ ["src", "components", "component.ts"]) = true →
      repoRoot ++ ["README.docspec.md"] ∈ fs.glob repoRoot →
      repoRoot ++ ["README.docspec.md"]
          ∈ raw_candidates fs repoRoot [["src", "components", "component.ts"]]
        ∧ ∃ q ∈ dedup_resolve fs
            (raw_candidates fs repoRoot [["src", "components", "component.ts"]]),
            fs.resolve q = fs.resolve (repoRoot ++ ["README.docspec.md"]))
    ∧ ["repo", "README.docspec.md"]
        ∈ find_candidate_docspecs exampleFS 10 ["repo"]
            [["src", "components", "component.ts"]] := by
  constructor
  · intro fs repoRoot hroot hex hglob
    have hmem : repoRoot ++ ["README.docspec.md"]
        ∈ raw_candidates fs repoRoot [["src", "components", "component.ts"]] := by
      rw [raw_candidates, List.foldl_cons, List.foldl_nil, walk_step,
        if_pos hex]
      have hfuel : (repoRoot ++ ["src", "components", "component.ts"]).length + 1
          = (repoRoot.length + 1) + 3 := by
        rw [List.length_append]
        rfl
      have hdrop : (repoRoot ++ ["src", "components", "component.ts"]).dropLast
          = repoRoot ++ ["src", "components"] := by
        rw [show repoRoot ++ ["src", "components", "component.ts"]
            = (repoRoot ++ ["src", "components"]) ++ ["component.ts"] by simp,
          List.dropLast_concat]
      rw [hfuel, hdrop]
      exact mem_walk_up_from_two_levels fs repoRoot hroot _ _ _ _ _ hglob
    refine ⟨hmem, ?_⟩
    rcases resolve_mem_dedup_of_mem fs
        (raw_candidates fs repoRoot [["src", "components", "component.ts"]])
        [] _ hmem with h | h
    · simp at h
    · rcases List.mem_map.mp h with ⟨q, hq, hrq⟩
      exact ⟨q, hq, hrq⟩
  · decide

theorem walk_reaches_repo_root_witness :
    ["repo"] ++ ["README.docspec.md"]
        ∈ raw_candidates exampleFS ["repo"]
            [["src", "components", "component.ts"]]
      ∧ ∃ q ∈ dedup_resolve exampleFS
          (raw_candidates exampleFS ["repo"]
            [["src", "components", "component.ts"]]),
          exampleFS.resolve q
            = exampleFS.resolve (["repo"] ++ ["README.docspec.md"]) :=
  walk_reaches_repo_root.1 exampleFS ["repo"] (by decide) (by decide) (by decide)

/-! ## Every returned path exists on disk (C5) -/

theorem mem_foldl_walk_step (fs : FS) (repoRoot : FsPath)
    (l : List RelPath) :
    ∀ init p, p ∈ l.foldl (walk_step fs repoRoot) init →
      p ∈ init ∨ ∃ d, p ∈ fs.glob d := by
  induction l with
  | nil => intro init p hp; exact Or.inl hp
  | cons f l ih =>
    intro init p hp
    rw [List.foldl_cons] at hp
    rcases ih _ p hp with h | h
    · rw [walk_step] at h
      cases hb : fs.pathExists (repoRoot ++ f)
      · rw [hb] at h
        simp only [Bool.false_eq_true, if_false] at h
        exact Or.inl h
      · rw [hb] at h
        simp only [if_true] at h
        rcases mem_walk_up_add fs _ _ _ _ p h with h' | h'
        · exact Or.inl h'
        · exact Or.inr h'
    · exact Or.inr h

theorem mem_direct_changed (fs : FS) (repoRoot : FsPath)
    (changedFiles : List RelPath) (p : FsPath)
    (hp : p ∈ direct_changed_docspecs fs repoRoot changedFiles) :
    fs.pathExists p = true := by
  rw [direct_changed_docspecs] at hp
  rcases List.mem_map.mp hp with ⟨f, hf, rfl⟩
  have := (List.mem_filter.mp hf).2
  exact (Bool.and_eq_true _ _ |>.mp this).2

theorem foldl_walk_step_filter (fs : FS) (repoRoot : FsPath)
    (l : List RelPath) :
    ∀ init,
      (l.filter (fun f => fs.pathExists (repoRoot ++ f))).foldl
          (walk_step fs repoRoot) init
        = l.foldl (walk_step fs repoRoot) init := by
  induction l with
  | nil => intro init; rfl
  | cons f l ih =>
    intro init
    rw [List.filter_cons]
    cases hb : fs.pathExists (repoRoot ++ f)
    · simp only [Bool.false_eq_true, if_false]
      rw [ih, List.foldl_cons]
      have : walk_step fs repoRoot init f = init := by
        rw [walk_step, hb]
        simp
      rw [this]
    · simp only [if_true]
      rw [List.foldl_cons, List.foldl_cons, ih]

theorem direct_changed_filter (fs : FS) (repoRoot : FsPath)
    (changedFiles : List RelPath) :
    direct_changed_docspecs fs repoRoot
        (changedFiles.filter (fun f => fs.pathExists (repoRoot ++ f)))
      = direct_changed_docspecs fs repoRoot changedFiles := by
  unfold direct_changed_docspecs
  rw [List.filter_filter]
  congr 1
  apply List.filter_congr
  intro f _
  cases re_docspec_match f <;> cases hb : fs.pathExists (repoRoot ++ f) <;>
    simp [hb]

/-- Claim C5: under the filesystem invariant that directory enumeration
only reports existing files, every path returned by
`find_candidate_docspecs` exists on disk at call time; moreover the
result is unchanged when changed files that do not exist on disk are
removed from the input, i.e. a deleted changed file is skipped entirely
(it contributes neither a step-1 candidate nor a step-2 walk). -/
theorem find_candidate_docspecs_exists_on_disk (fs : FS) (maxDocspecs : Nat)
    (repoRoot : FsPath) (changedFiles : List RelPath)
    (hwf : ∀ d p, p ∈ fs.glob d → fs.pathExists p = true) :
    (∀ p ∈ find_candidate_docspecs fs maxDocspecs repoRoot changedFiles,
        fs.pathExists p = true)
    ∧ find_candidate_docspecs fs maxDocspecs repoRoot changedFiles
        = find_candidate_docspecs fs maxDocspecs repoRoot
            (changedFiles.filter (fun f => fs.pathExists (repoRoot ++ f))) := by
  constructor
  · intro p hp
    rw [find_candidate_docspecs] at hp
    have hp2 : p ∈ raw_candidates fs repoRoot changedFiles :=
      mem_of_mem_dedup fs _ [] p (List.mem_of_mem_take hp)
    rw [raw_candidates] at hp2
    rcases mem_foldl_walk_step fs repoRoot changedFiles _ p hp2 with h | h
    · exact mem_direct_changed fs repoRoot changedFiles p h
    · rcases h with ⟨d, hd⟩
      exact hwf d p hd
  · rw [find_candidate_docspecs, find_candidate_docspecs]
    congr 1
    rw [raw_candidates, raw_candidates, direct_changed_filter,
      foldl_walk_step_filter]

theorem exampleFS_wf :
    ∀ d p, p ∈ exampleFS.glob d → exampleFS.pathExists p = true := by
  intro d p hp
  by_cases hd : d = ["repo"]
  · subst hd
    have hg : exampleFS.glob ["repo"] = [["repo", "README.docspec.md"]] := rfl
    rw [hg] at hp
    rcases List.mem_singleton.mp hp with rfl
    decide
  · have hg : exampleFS.glob d = [] := if_neg hd
    rw [hg] at hp
    simp at hp

theorem find_candidate_docspecs_exists_on_disk_witness :
    (∀ p ∈ find_candidate_docspecs exampleFS 10 ["repo"]
        [["src", "components", "component.ts"], ["ghost.txt"]],
        exampleFS.pathExists p = true)
    ∧ find_candidate_docspecs exampleFS 10 ["repo"]
        [["src", "components", "component.ts"], ["ghost.txt"]]
      = find_candidate_docspecs exampleFS 10 ["repo"]
          ([["src", "components", "component.ts"], ["ghost.txt"]].filter
            (fun f => exampleFS.pathExists (["repo"] ++ f))) :=
  find_candidate_docspecs_exists_on_disk exampleFS 10 ["repo"]
    [["src", "components", "component.ts"], ["ghost.txt"]] exampleFS_wf

/-! ## Determinism (C9) -/

/-- Claim C9: `find_candidate_docspecs` is deterministic: two runs that
observe identical filesystem state (existence checks, directory
enumerations including their order, path resolution, and file contents)
with the same repository root and the same ordered changed-file list
produce identical candidate lists.  The two `FS` records model the
observations of the two runs. -/
theorem find_candidate_docspecs_deterministic (fs1 fs2 : FS)
    (hex : ∀ p, fs1.pathExists p = fs2.pathExists p)
    (hglob : ∀ d, fs1.glob d = fs2.glob d)
    (hres : ∀ p, fs1.resolve p = fs2.resolve p)
    (hread : ∀ p, fs1.readFile p = fs2.readFile p) :
    ∀ (maxDocspecs : Nat) (repoRoot : FsPath) (changedFiles : List RelPath),
      find_candidate_docspecs fs1 maxDocspecs repoRoot changedFiles
        = find_candidate_docspecs fs2 maxDocspecs repoRoot changedFiles := by
  obtain ⟨e1, g1, r1, d1⟩ := fs1
  obtain ⟨e2, g2, r2, d2⟩ := fs2
  have h1 : e1 = e2 := funext hex
  have h2 : g1 = g2 := funext hglob
  have h3 : r1 = r2 := funext hres
  have h4 : d1 = d2 := funext hread
  subst h1
  subst h2
  subst h3
  subst h4
  intro maxDocspecs repoRoot changedFiles
  rfl

theorem find_candidate_docspecs_deterministic_witness :
    find_candidate_docspecs exampleFS 10 ["repo"] [["README.docspec.md"]]
      = find_candidate_docspecs exampleFS 10 ["repo"] [["README.docspec.md"]] :=
  find_candidate_docspecs_deterministic exampleFS exampleFS
    (fun _ => rfl) (fun _ => rfl) (fun _ => rfl) (fun _ => rfl)
    10 ["repo"] [["README.docspec.md"]]

/-! ## The main flow skips pairs without a target markdown (C8) -/

theorem build_sections_count (fs : FS) (repoRoot : FsPath) (l : List FsPath) :
    ∀ parts added,
      (build_sections fs repoRoot l (parts, added)).2
        = added + (l.filter (valid_pair fs)).length := by
  induction l with
  | nil => intro parts added; simp [build_sections]
  | cons dp rest ih =>
    intro parts added
    rw [List.filter_cons]
    cases htm : target_markdown_for_docspec dp with
    | none =>
      have hv : valid_pair fs dp = false := by rw [valid_pair, htm]
      simp only [build_sections, htm, hv, Bool.false_eq_true, if_false]
      exact ih parts added
    | some md =>
      have hv : valid_pair fs dp = fs.pathExists md := by rw [valid_pair, htm]
      cases hb : fs.pathExists md
      · simp only [build_sections, htm, hv, hb, Bool.false_eq_true, if_false]
        exact ih parts added
      · simp only [build_sections, htm, hv, hb, if_true]
        rw [ih, List.length_cons]
        omega

/-- Claim C8: in the main flow, candidates whose target markdown file
does not exist (or whose name yields no target) do not count toward the
zero-candidate check: whenever no candidate passes the per-pair filter
(in particular when no candidates were discovered at all), `main` prints
a "nothing to do" message and terminates with exit code 0 without
emitting an assembled prompt body; conversely a prompt is only emitted
when at least one candidate passes the filter. -/
theorem main_flow_zero_pairs (fs : FS) (repoRoot : FsPath)
    (changedFiles : List RelPath) (diff : String) (maxDocspecs : Nat) :
    ((find_candidate_docspecs fs maxDocspecs repoRoot changedFiles).filter
          (valid_pair fs) = [] →
        ∃ m, main_flow fs repoRoot changedFiles diff maxDocspecs
          = MainOutput.nothingToDo m)
    ∧ ∀ s, main_flow fs repoRoot changedFiles diff maxDocspecs
          = MainOutput.prompt s →
        (find_candidate_docspecs fs maxDocspecs repoRoot changedFiles).filter
          (valid_pair fs) ≠ [] := by
  have key : (find_candidate_docspecs fs maxDocspecs repoRoot
        changedFiles).filter (valid_pair fs) = [] →
      ∃ m, main_flow fs repoRoot changedFiles diff maxDocspecs
        = MainOutput.nothingToDo m := by
    intro h
    by_cases hc : find_candidate_docspecs fs maxDocspecs repoRoot changedFiles
        = []
    · exact ⟨_, by rw [main_flow, if_pos hc]⟩
    · have hz : (build_sections fs repoRoot
          (find_candidate_docspecs fs maxDocspecs repoRoot changedFiles)
          (init_parts diff, 0)).2 = 0 := by
        rw [build_sections_count, h]
        rfl
      exact ⟨_, by rw [main_flow, if_neg hc, if_pos hz]⟩
  refine ⟨key, ?_⟩
  intro s hs hfil
  rcases key hfil with ⟨m, hm⟩
  rw [hm] at hs
  simp at hs

theorem main_flow_zero_pairs_witness :
    ∃ m, main_flow exampleFS ["repo"] [["ghost.txt"]] "diff" 10
      = MainOutput.nothingToDo m :=
  (main_flow_zero_pairs exampleFS ["repo"] [["ghost.txt"]] "diff" 10).1
    (by decide)

/-! ## The docspec naming round trip (C10) -/

theorem append_md_ne_empty (stem : String) : stem ++ ".md" ≠ "" := by
  apply string_ne_empty_of_data
  rw [string_data_append]
  simp

theorem pathlib_suffix_md (stem : String) (h : stem ≠ "") :
    pathlib_suffix (stem ++ ".md") = ".md" := by
  have hstem : 0 < stem.data.length :=
    List.length_pos.mpr (data_ne_nil_of_ne_empty stem h)
  have htw : ((stem ++ ".md").data.reverse.takeWhile (fun c => c != '.'))
      = ['d', 'm'] := by
    rw [string_data_append]
    rw [show (".md" : String).data = ['.', 'm', 'd'] from rfl]
    rw [List.reverse_append]
    rfl
  have hlen : (stem ++ ".md").data.length = stem.data.length + 3 := by
    rw [string_data_append, List.length_append]
    rfl
  have h2 : (['d', 'm'] : List Char).length = 2 := rfl
  have hcond : 0 < ((stem ++ ".md").data.reverse.takeWhile
        (fun c => c != '.')).length
      ∧ ((stem ++ ".md").data.reverse.takeWhile
          (fun c => c != '.')).length + 1 < (stem ++ ".md").data.length := by
    rw [htw, hlen, h2]
    omega
  unfold pathlib_suffix
  rw [if_pos hcond, htw]
  rfl

/-- Shared: `with_suffix(".docspec.md")` on a name of the form
`stem ++ ".md"` with non-empty `stem` replaces the `".md"` extension. -/
theorem with_suffix_concat (dir : List String) (stem : String) (h : stem ≠ "") :
    with_suffix_docspec (dir ++ [stem ++ ".md"])
      = some (dir ++ [stem ++ ".docspec.md"]) := by
  unfold with_suffix_docspec
  rw [path_name_concat, List.dropLast_concat]
  rw [if_neg (append_md_ne_empty stem)]
  rw [pathlib_suffix_md stem h]
  rw [if_neg (by decide : ¬ (".md" : String) = "")]
  rw [str_drop_right_append]

/-- Claim C10 (amended): the two naming maps are mutually inverse on
names with a non-empty base: for every non-empty `stem`, deriving the
docspec path of `<stem>.md` via `with_suffix(".docspec.md")` and then
applying `target_markdown_for_docspec` returns the original markdown
path, and conversely for `<stem>.docspec.md` the maps compose to the
identity.  (For the final component `".docspec.md"` itself, i.e. an
empty `stem`, the reverse direction fails: see the counterexample.) -/
theorem docspec_naming_round_trip (dir : List String) (stem : String)
    (h : stem ≠ "") :
    (with_suffix_docspec (dir ++ [stem ++ ".md"])).bind
        target_markdown_for_docspec = some (dir ++ [stem ++ ".md"])
    ∧ (target_markdown_for_docspec (dir ++ [stem ++ ".docspec.md"])).bind
        with_suffix_docspec = some (dir ++ [stem ++ ".docspec.md"]) := by
  constructor
  · rw [with_suffix_concat dir stem h]
    exact target_markdown_concat dir stem
  · rw [target_markdown_concat dir stem]
    exact with_suffix_concat dir stem h

theorem docspec_naming_round_trip_witness :
    (with_suffix_docspec ([] ++ ["README" ++ ".md"])).bind
        target_markdown_for_docspec = some ([] ++ ["README" ++ ".md"])
    ∧ (target_markdown_for_docspec ([] ++ ["README" ++ ".docspec.md"])).bind
        with_suffix_docspec = some ([] ++ ["README" ++ ".docspec.md"]) :=
  docspec_naming_round_trip [] "README" (by decide)

/-- Claim C10, counterexample to the claim as stated: the path
`.docspec.md` (an empty base before the suffix) ends in `".docspec.md"`,
but mapping it to its target markdown `".md"` and re-deriving the docspec
path yields `".md.docspec.md"`, not the original, because
`PurePath.suffix` of the hidden file `".md"` is empty, so
`with_suffix` appends instead of replacing. -/
theorem docspec_naming_round_trip_counterexample :
    (target_markdown_for_docspec [".docspec.md"]).bind with_suffix_docspec
      ≠ some [".docspec.md"] := by decide

end DocspecCI
